import Mathlib

/-!
Verification of the transcript/speaker alignment pipeline of
`scripts/speaker_recognition/ASR_with_SpeakerDiarization.py`.

The Python source is shallowly embedded: every definition below translates a
function (or the relevant loop of a function) of that file.  Python ints are
`Int` (frame indices and timestamps), Python floats that are only compared and
averaged are `Rat`, Python lists are `List`, and code that can raise
(`IndexError`, failed `assert`) returns `Option`.
-/

/- ------------------------------------------------------------------ -/
/- Frame Decoder: `WER.ctc_decoder_predictions_tensor`, lines 94-102. -/
/- ------------------------------------------------------------------ -/

/-- The per-frame CTC greedy-collapse loop of `ctc_decoder_predictions_tensor`
(lines 97-102 of the source): state `previous` starts at `blankId`; frame `pdx`
with label `p` is emitted (token appended, frame index recorded) iff
`(p != previous or previous == blank_id) and p != blank_id`; then
`previous = p` unconditionally. -/
def ctcLoop (blankId : Nat) : List Nat → Nat → Int → List Nat × List Int
  | [], _, _ => ([], [])
  | p :: rest, previous, pdx =>
    let r := ctcLoop blankId rest p (pdx + 1)
    if (p ≠ previous ∨ previous = blankId) ∧ p ≠ blankId then
      (p :: r.1, pdx :: r.2)
    else r

/-- `ctc_decoder_predictions_tensor` for a single prediction in the batch:
returns `(decoded_prediction, decoded_timing_list)`. -/
def ctc_decoder_predictions_tensor (blankId : Nat) (prediction : List Nat) :
    List Nat × List Int :=
  ctcLoop blankId prediction blankId 0

/-- The emission condition of line 99 of the source, expressed frame-wise:
for the loop entered with state `prev`, the label prior to frame `i` is `prev`
when `i = 0` and otherwise the label of frame `i - 1` (because the loop sets
`previous = p` unconditionally at every frame). -/
def ctcEmitB (blankId prev : Nat) (pred : List Nat) (i : Nat) : Bool :=
  decide ((pred.getD i blankId ≠ (if i = 0 then prev else pred.getD (i - 1) blankId) ∨
      (if i = 0 then prev else pred.getD (i - 1) blankId) = blankId) ∧
    pred.getD i blankId ≠ blankId)

theorem ctcEmitB_succ (blankId prev p : Nat) (rest : List Nat) (i : Nat) :
    ctcEmitB blankId prev (p :: rest) (i + 1) = ctcEmitB blankId p rest i := by
  cases i with
  | zero => simp [ctcEmitB]
  | succ n => simp [ctcEmitB, List.getD_cons_succ]

theorem ctcEmitB_zero (blankId prev p : Nat) (rest : List Nat) :
    ctcEmitB blankId prev (p :: rest) 0 =
      decide ((p ≠ prev ∨ prev = blankId) ∧ p ≠ blankId) := by
  simp [ctcEmitB]

/-- Generalized characterization of `ctcLoop`: the loop started in state
`prev` at frame counter `pdx` emits exactly the frames satisfying the
source's emission condition, in frame order, recording one timestamp
per emitted token. -/
theorem ctcLoop_characterization (blankId : Nat) :
    ∀ (pred : List Nat) (prev : Nat) (pdx : Int),
      ctcLoop blankId pred prev pdx =
        (((List.range pred.length).filter (ctcEmitB blankId prev pred)).map
            (fun i => pred.getD i blankId),
         ((List.range pred.length).filter (ctcEmitB blankId prev pred)).map
            (fun i : Nat => pdx + (i : Int))) := by
  intro pred
  induction pred with
  | nil => intro prev pdx; simp [ctcLoop]
  | cons p rest ih =>
    intro prev pdx
    have hrange : List.range (p :: rest).length = 0 :: (List.range rest.length).map Nat.succ := by
      simpa using List.range_succ_eq_map rest.length
    have hcomp : (ctcEmitB blankId prev (p :: rest)) ∘ Nat.succ = ctcEmitB blankId p rest := by
      funext i
      simp [Function.comp, ctcEmitB_succ]
    have hgd : ((fun i => (p :: rest).getD i blankId) ∘ Nat.succ) =
        fun i => rest.getD i blankId := by
      funext i
      simp [Function.comp, List.getD_cons_succ]
    have hts : ((fun i : Nat => pdx + (i : Int)) ∘ Nat.succ) =
        fun i : Nat => (pdx + 1) + (i : Int) := by
      funext i
      simp only [Function.comp, Nat.succ_eq_add_one]
      push_cast
      ring
    have hfilter :
        (List.range (p :: rest).length).filter (ctcEmitB blankId prev (p :: rest)) =
          (if (p ≠ prev ∨ prev = blankId) ∧ p ≠ blankId then [0] else []) ++
            ((List.range rest.length).filter (ctcEmitB blankId p rest)).map Nat.succ := by
      rw [hrange, List.filter_cons, List.filter_map, hcomp]
      by_cases h : (p ≠ prev ∨ prev = blankId) ∧ p ≠ blankId
      · rw [if_pos (by rw [ctcEmitB_zero]; exact decide_eq_true h), if_pos h]
        rfl
      · rw [if_neg (by rw [ctcEmitB_zero]; simpa using h), if_neg h, List.nil_append]
    rw [ctcLoop, ih p (pdx + 1), hfilter]
    by_cases h : (p ≠ prev ∨ prev = blankId) ∧ p ≠ blankId
    · rw [if_pos h, if_pos h, Prod.mk.injEq]
      refine ⟨?_, ?_⟩
      · rw [List.singleton_append, List.map_cons, List.map_map, hgd, List.getD_cons_zero]
      · rw [List.singleton_append, List.map_cons, List.map_map, hts]
        simp
    · rw [if_neg h, if_neg h, Prod.mk.injEq]
      refine ⟨?_, ?_⟩
      · rw [List.nil_append, List.map_map, hgd]
      · rw [List.nil_append, List.map_map, hts]

/-- An all-blank input decodes to the empty hypothesis with no timestamps. -/
theorem ctcLoop_replicate_blank (blankId : Nat) :
    ∀ (n : Nat) (prev : Nat) (pdx : Int),
      ctcLoop blankId (List.replicate n blankId) prev pdx = ([], []) := by
  intro n
  induction n with
  | zero => intro prev pdx; simp [ctcLoop]
  | succ m ih =>
    intro prev pdx
    rw [List.replicate_succ, ctcLoop, if_neg (by simp), ih]

/-- `seq` is an expansion of the decoded hypothesis `hyp` (the spec's sense):
optional blanks, then each non-blank token of `hyp` repeated `k+1 ≥ 1` times,
with at least one separating blank required exactly when the previous emitted
token is the same token (`prevOpt` is that previous token, `none` at the
start). -/
def IsExp (blankId : Nat) : Option Nat → List Nat → List Nat → Prop
  | _, [], s => ∃ b, s = List.replicate b blankId
  | prevOpt, t :: rest, s =>
    t ≠ blankId ∧ ∃ b k s', s = List.replicate b blankId ++ List.replicate (k + 1) t ++ s' ∧
      (prevOpt = some t → 1 ≤ b) ∧ IsExp blankId (some t) rest s'

/-- Leading blanks are skipped: they emit nothing; the state becomes blank
if at least one blank was read. -/
theorem ctcLoop_blank_prefix (blankId : Nat) :
    ∀ (b : Nat) (s : List Nat) (prev : Nat) (pdx : Int),
      ctcLoop blankId (List.replicate b blankId ++ s) prev pdx =
        ctcLoop blankId s (if b = 0 then prev else blankId) (pdx + b) := by
  intro b
  induction b with
  | zero => intro s prev pdx; simp
  | succ m ih =>
    intro s prev pdx
    rw [List.replicate_succ, List.cons_append, ctcLoop, if_neg (by simp), ih]
    by_cases hm : m = 0
    · subst hm
      simp
    · rw [if_neg hm, if_neg (Nat.succ_ne_zero m)]
      congr 1
      push_cast
      ring

/-- Repeats of the current non-blank state are collapsed without emission. -/
theorem ctcLoop_collapse (blankId t : Nat) (ht : t ≠ blankId) :
    ∀ (k : Nat) (s : List Nat) (pdx : Int),
      ctcLoop blankId (List.replicate k t ++ s) t pdx =
        ctcLoop blankId s t (pdx + k) := by
  intro k
  induction k with
  | zero => intro s pdx; simp
  | succ m ih =>
    intro s pdx
    rw [List.replicate_succ, List.cons_append, ctcLoop, if_neg (by simp [ht]), ih]
    congr 1
    push_cast
    ring

/-- A run of `k+1` copies of a non-blank token `t`, entered in a state from
which `t` is emittable, emits exactly one `t` with the run's first frame as
its timestamp. -/
theorem ctcLoop_run (blankId t : Nat) (ht : t ≠ blankId) (k : Nat) (s : List Nat)
    (prev : Nat) (pdx : Int) (hprev : t ≠ prev ∨ prev = blankId) :
    ctcLoop blankId (List.replicate (k + 1) t ++ s) prev pdx =
      (t :: (ctcLoop blankId s t (pdx + (k + 1))).1,
       pdx :: (ctcLoop blankId s t (pdx + (k + 1))).2) := by
  rw [List.replicate_succ, List.cons_append, ctcLoop, if_pos ⟨hprev, ht⟩,
    ctcLoop_collapse blankId t ht k s (pdx + 1)]
  have : pdx + 1 + (k : Int) = pdx + ((k : Int) + 1) := by ring
  rw [this]

/-- Decoding an expansion of a hypothesis recovers the hypothesis, with one
timestamp per emitted token (generalized over the decoder state). -/
theorem ctcLoop_isExp (blankId : Nat) :
    ∀ (hyp : List Nat) (prevOpt : Option Nat) (seq : List Nat) (pdx : Int),
      IsExp blankId prevOpt hyp seq →
      (∀ t, prevOpt = some t → t ≠ blankId) →
      (ctcLoop blankId seq (prevOpt.getD blankId) pdx).1 = hyp ∧
      (ctcLoop blankId seq (prevOpt.getD blankId) pdx).2.length = hyp.length := by
  intro hyp
  induction hyp with
  | nil =>
    intro prevOpt seq pdx hexp hprev
    obtain ⟨b, hb⟩ := hexp
    subst hb
    have := ctcLoop_blank_prefix blankId b [] (prevOpt.getD blankId) pdx
    rw [List.append_nil] at this
    rw [this, ctcLoop]
    exact ⟨rfl, rfl⟩
  | cons t rest ih =>
    intro prevOpt seq pdx hexp hprev
    obtain ⟨ht, b, k, s', hseq, hb, hrec⟩ := hexp
    subst hseq
    rw [List.append_assoc,
      ctcLoop_blank_prefix blankId b _ (prevOpt.getD blankId) pdx]
    have hcond : t ≠ (if b = 0 then prevOpt.getD blankId else blankId) ∨
        (if b = 0 then prevOpt.getD blankId else blankId) = blankId := by
      by_cases hb0 : b = 0
      · rw [if_pos hb0]
        cases hpo : prevOpt with
        | none => exact Or.inr rfl
        | some t' =>
          by_cases htt : t' = t
          · exfalso
            subst htt
            exact absurd (hb hpo) (by omega)
          · left
            simp only [Option.getD_some]
            exact fun h => htt h.symm
      · rw [if_neg hb0]
        exact Or.inr rfl
    rw [ctcLoop_run blankId t ht k s' _ _ hcond]
    obtain ⟨ih1, ih2⟩ := ih (some t) s' (pdx + (b : Int) + ((k : Int) + 1)) hrec
      (fun u hu => by injection hu with h; rw [← h]; exact ht)
    simp only [Option.getD_some] at ih1 ih2
    constructor
    · show t :: (ctcLoop blankId s' t (pdx + (b : Int) + ((k : Int) + 1))).1 = t :: rest
      rw [ih1]
    · show ((pdx + (b : Int)) ::
        (ctcLoop blankId s' t (pdx + (b : Int) + ((k : Int) + 1))).2).length =
        (t :: rest).length
      rw [List.length_cons, List.length_cons, ih2]

/- ------------------------------------------------------------------ -/
/- Word Timer: `_get_spaces` (lines 493-507) and the window derivation
   of `get_speech_labels_list` (lines 482-489).                        -/
/- ------------------------------------------------------------------ -/

/-- The scan loop of `_get_spaces` (lines 497-505): `k` is the loop index,
`stt` the start of the current word, and `rem` is the not-yet-scanned suffix
`trans.drop k` (so the head of `rem` is `trans[k]`).  A space at position `k`
records the inter-word interval `[timestamps[k], timestamps[k+1]-1]` and the
word `trans[stt:k]`; after the loop, `trans[stt:]` is appended when
`len(trans) > stt and trans[stt] != ' '`. -/
def getSpacesGo (trans : List Char) (ts : List Int) :
    List Char → Nat → Nat → List (Int × Int) × List (List Char)
  | [], _, stt =>
    ([], if trans.length > stt ∧ trans.getD stt ' ' ≠ ' ' then [trans.drop stt] else [])
  | c :: rem, k, stt =>
    if c = ' ' then
      let r := getSpacesGo trans ts rem (k + 1) (k + 1)
      ((ts.getD k 0, ts.getD (k + 1) 0 - 1) :: r.1, ((trans.drop stt).take (k - stt)) :: r.2)
    else getSpacesGo trans ts rem (k + 1) stt

/-- `_get_spaces` (lines 493-507): the two asserts of lines 494-495 are the
`Option` guard (`none` models the `AssertionError`). -/
def get_spaces (trans : List Char) (ts : List Int) :
    Option (List (Int × Int) × List (List Char)) :=
  if trans.length > 0 ∧ ts.length > 0 ∧ trans.length = ts.length then
    some (getSpacesGo trans ts trans 0 0)
  else none

/-- Python's `text.split(' ')`: the space-delimited tokens of the text,
including empty tokens produced by leading, trailing or doubled spaces.
This is the spec-side meaning of "space-delimited tokens". -/
def spaceTokens : List Char → List (List Char)
  | [] => [[]]
  | c :: rest =>
    let ts := spaceTokens rest
    if c = ' ' then [] :: ts else (c :: ts.headD []) :: ts.tail

theorem spaceTokens_ne_nil (l : List Char) : spaceTokens l ≠ [] := by
  cases l with
  | nil => simp [spaceTokens]
  | cons c rest =>
    rw [spaceTokens]
    by_cases h : c = ' ' <;> simp [h]

theorem spaceTokens_length (l : List Char) :
    (spaceTokens l).length = l.count ' ' + 1 := by
  induction l with
  | nil => simp [spaceTokens]
  | cons c rest ih =>
    by_cases h : c = ' '
    · simp [spaceTokens, h, ih, List.count_cons]
    · have h1 : (spaceTokens (c :: rest)).length = (spaceTokens rest).tail.length + 1 := by
        simp [spaceTokens, h]
      rw [h1, List.length_tail, ih, List.count_cons]
      simp [h]

/-- One inter-word interval is recorded per space character scanned. -/
theorem getSpacesGo_fst_length (trans : List Char) (ts : List Int) :
    ∀ (rem : List Char) (k stt : Nat),
      (getSpacesGo trans ts rem k stt).1.length = rem.count ' ' := by
  intro rem
  induction rem with
  | nil => intro k stt; simp [getSpacesGo]
  | cons c rem ih =>
    intro k stt
    by_cases hc : c = ' '
    · simp [getSpacesGo, hc, ih, List.count_cons]
    · simp [getSpacesGo, hc, ih, List.count_cons]

/-- The intervals recorded by the scan over the suffix `rem` (whose head sits
at text position `k`) are `[ts[k+j], ts[k+j+1]-1]` for exactly the positions
`j` of `rem` holding a space, in order. -/
theorem getSpacesGo_fst_eq (trans : List Char) (ts : List Int) :
    ∀ (rem : List Char) (k stt : Nat),
      (getSpacesGo trans ts rem k stt).1 =
        ((List.range rem.length).filter (fun j => decide (rem.getD j ' ' = ' '))).map
          (fun j => (ts.getD (k + j) 0, ts.getD (k + j + 1) 0 - 1)) := by
  intro rem
  induction rem with
  | nil => intro k stt; simp [getSpacesGo]
  | cons c rem ih =>
    intro k stt
    have hrange : List.range (c :: rem).length = 0 :: (List.range rem.length).map Nat.succ := by
      simpa using List.range_succ_eq_map rem.length
    have hcomp : ((fun j => decide ((c :: rem).getD j ' ' = ' ')) ∘ Nat.succ) =
        fun j => decide (rem.getD j ' ' = ' ') := by
      funext j
      simp [Function.comp, List.getD_cons_succ]
    have hmap : ((fun j => ((ts.getD (k + j) 0, ts.getD (k + j + 1) 0 - 1) : Int × Int)) ∘
        Nat.succ) = fun j => (ts.getD ((k + 1) + j) 0, ts.getD ((k + 1) + j + 1) 0 - 1) := by
      funext j
      simp only [Function.comp, Nat.succ_eq_add_one]
      have h1 : k + (j + 1) = (k + 1) + j := by omega
      rw [h1]
    rw [hrange, List.filter_cons, List.filter_map, hcomp]
    by_cases hc : c = ' '
    · rw [if_pos (by simp [hc])]
      simp only [getSpacesGo, if_pos hc, List.map_cons, List.map_map, hmap]
      rw [ih (k + 1) (k + 1)]
      simp
    · rw [if_neg (by simp [hc])]
      simp only [getSpacesGo, if_neg hc, List.map_map, hmap]
      exact ih (k + 1) stt

/-- The adjacent-pair loop `[ [xs[i][1], xs[i+1][0]] for i in range(len(xs)-1) ]`
shared by the middle word windows of `get_speech_labels_list` (line 482) and
the middle speech segments of `get_speech_label_and_write_VAD_rttm`
(lines 433-435). -/
def middleWindows {α : Type} : List (α × α) → List (α × α)
  | a :: b :: rest => (a.2, b.1) :: middleWindows (b :: rest)
  | _ => []

theorem middleWindows_length {α : Type} :
    ∀ (l : List (α × α)), (middleWindows l).length = l.length - 1
  | [] => rfl
  | [_] => rfl
  | a :: b :: rest => by
    rw [middleWindows, List.length_cons, middleWindows_length (b :: rest)]
    simp

theorem middleWindows_getD {α : Type} (d : α × α) :
    ∀ (l : List (α × α)) (i : Nat), i + 1 < l.length →
      (middleWindows l).getD i d = ((l.getD i d).2, (l.getD (i + 1) d).1)
  | [], i, h => by simp at h
  | [_], i, h => by simp at h
  | a :: b :: rest, 0, h => by simp [middleWindows]
  | a :: b :: rest, i + 1, h => by
    rw [middleWindows, List.getD_cons_succ, List.getD_cons_succ, List.getD_cons_succ]
    exact middleWindows_getD d (b :: rest) i (by simpa using h)

/-- The word-window derivation of `get_speech_labels_list` (lines 482-483):
`word_timetamps = [[timestamps[0], _spaces[0][0]]] + middle + [[_spaces[-1][1],
logit.shape[0]]]`.  When `_spaces` is empty the subscripts `_spaces[0]` and
`_spaces[-1]` raise `IndexError`, modelled as `none`. -/
def word_timetamps (ts : List Int) (spaces : List (Int × Int)) (numFrames : Int) :
    Option (List (Int × Int)) :=
  match spaces with
  | [] => none
  | s0 :: _ =>
    some ((ts.getD 0 0, s0.1) ::
      (middleWindows spaces ++ [((spaces.getLastD (0, 0)).2, numFrames)]))

/-- The per-utterance body of `get_speech_labels_list` restricted to the data
this specification is about (lines 471, 482-483, 489): compute `_get_spaces`,
derive the word windows, and apply the final
`assert len(_trans_words) == len(word_timetamps)` (failure modelled as
`none`). -/
def get_speech_labels_core (trans : List Char) (ts : List Int) (numFrames : Int) :
    Option (List (Int × Int) × List (List Char) × List (Int × Int)) :=
  (get_spaces trans ts).bind fun p =>
    (word_timetamps ts p.1 numFrames).bind fun w =>
      if p.2.length = w.length then some (p.1, p.2, w) else none

theorem word_timetamps_length (ts : List Int) (spaces : List (Int × Int))
    (numFrames : Int) (w : List (Int × Int))
    (h : word_timetamps ts spaces numFrames = some w) :
    w.length = spaces.length + 1 := by
  match spaces, h with
  | s0 :: rest, h =>
    rw [word_timetamps] at h
    have hw := (Option.some.injEq _ _ ▸ h).symm
    rw [hw, List.length_cons, List.length_append, middleWindows_length]
    simp

/- ------------------------------------------------------------------ -/
/- Silence Segmenter: `_get_silence_timestamps`, lines 315-336.        -/
/- ------------------------------------------------------------------ -/

/-- `np.argmax` over one probability row: index of the first maximal entry
(`bi`/`bv` are the best index and value so far, `i` the next index). -/
def npArgmaxAux (bi : Nat) (bv : Rat) (i : Nat) : List Rat → Nat
  | [] => bi
  | x :: xs => if bv < x then npArgmaxAux i x (i + 1) xs else npArgmaxAux bi bv (i + 1) xs

/-- `np.argmax` of a row; `0` for the empty row (on which NumPy raises). -/
def npArgmax : List Rat → Nat
  | [] => 0
  | x :: xs => npArgmaxAux 0 x 1 xs

/-- The scan loop of `_get_silence_timestamps` (lines 323-331) over the
arg-max class indices of the remaining frames; `idx` is the current frame
index, `idxState` the recorded entry frame, and the `Bool` is
`state == state_symbol`.  When the state machine is in silence and the
current class is neither `0` nor `symbol_idx`, the interval closes at the
previous frame; the final partial interval closes at the last frame
(lines 333-334). -/
def silenceScan (symbolIdx : Nat) : List Nat → Nat → Nat → Bool → List (Nat × Nat)
  | [], idx, idxState, inSil => if inSil then [(idxState, idx - 1)] else []
  | c :: rest, idx, idxState, true =>
    if c ≠ 0 ∧ c ≠ symbolIdx then
      (idxState, idx - 1) :: silenceScan symbolIdx rest (idx + 1) idxState false
    else silenceScan symbolIdx rest (idx + 1) idxState true
  | c :: rest, idx, idxState, false =>
    if c = symbolIdx then silenceScan symbolIdx rest (idx + 1) idx true
    else silenceScan symbolIdx rest (idx + 1) idxState false

/-- `_get_silence_timestamps(probs, symbol_idx, state_symbol)` (lines
315-336): frame `0` seeds the state (entry frame `0`), the loop runs from
frame `1`.  An empty `probs` (on which the source would raise inside
`np.argmax`) returns `[]` here; every theorem below assumes `probs ≠ []`. -/
def get_silence_timestamps (probs : List (List Rat)) (symbolIdx : Nat) :
    List (Nat × Nat) :=
  match probs with
  | [] => []
  | p0 :: rest =>
    silenceScan symbolIdx (rest.map npArgmax) 1 0 (decide (npArgmax p0 = symbolIdx))

/-- The two reified states of the Silence Segmenter's scan, as the spec
words them. -/
inductive SilState where
  | inSilence (entry : Nat)
  | notInSilence
deriving DecidableEq

/-- Spec-worded single forward scan: enter `IN_SILENCE` when the arg-max
class equals the silence index, recording the entry frame; while
`IN_SILENCE`, close the interval at the previous frame exactly when the
arg-max becomes neither `0` nor the silence index; if still `IN_SILENCE`
at sequence end, close at the last frame. -/
def silenceSpecGo (symbolIdx : Nat) : List Nat → Nat → SilState → List (Nat × Nat)
  | [], i, SilState.inSilence e => [(e, i - 1)]
  | [], _, SilState.notInSilence => []
  | c :: rest, i, SilState.inSilence e =>
    if c ≠ 0 ∧ c ≠ symbolIdx then
      (e, i - 1) :: silenceSpecGo symbolIdx rest (i + 1) SilState.notInSilence
    else silenceSpecGo symbolIdx rest (i + 1) (SilState.inSilence e)
  | c :: rest, i, SilState.notInSilence =>
    if c = symbolIdx then silenceSpecGo symbolIdx rest (i + 1) (SilState.inSilence i)
    else silenceSpecGo symbolIdx rest (i + 1) SilState.notInSilence

/-- The spec's Silence Segmenter over a sequence of per-frame arg-max
classes, started outside silence at frame `0`. -/
def silence_segmenter_spec (symbolIdx : Nat) (argmaxes : List Nat) : List (Nat × Nat) :=
  silenceSpecGo symbolIdx argmaxes 0 SilState.notInSilence

theorem silenceScan_eq_specGo (symbolIdx : Nat) :
    ∀ (l : List Nat) (idx e : Nat),
      silenceScan symbolIdx l idx e true = silenceSpecGo symbolIdx l idx (SilState.inSilence e) ∧
      silenceScan symbolIdx l idx e false = silenceSpecGo symbolIdx l idx SilState.notInSilence := by
  intro l
  induction l with
  | nil => intro idx e; exact ⟨rfl, rfl⟩
  | cons c rest ih =>
    intro idx e
    constructor
    · rw [silenceScan, silenceSpecGo]
      by_cases h : c ≠ 0 ∧ c ≠ symbolIdx
      · rw [if_pos h, if_pos h, (ih (idx + 1) e).2]
      · rw [if_neg h, if_neg h, (ih (idx + 1) e).1]
    · rw [silenceScan, silenceSpecGo]
      by_cases h : c = symbolIdx
      · rw [if_pos h, if_pos h, (ih (idx + 1) idx).1]
      · rw [if_neg h, if_neg h, (ih (idx + 1) e).2]

/- ------------------------------------------------------------------ -/
/- Speech labels: `get_speech_label_and_write_VAD_rttm`, lines 428-445. -/
/- ------------------------------------------------------------------ -/

/-- The speech segments emitted by `get_speech_label_and_write_VAD_rttm`,
kept in frame units: the written start/end times are
`(frame + offset/time_stride) * time_stride`, a strictly monotone affine
image of these frames.  The loop of lines 433-437 emits
`[non_speech[idx][1], non_speech[idx+1][0]]` for consecutive non-speech
intervals, and lines 439-443 append `[non_speech[-1][1], len(probs)]` when
`non_speech[-1][1] < len(probs)`. -/
def speechFramesOf (nonSpeech : List (Nat × Nat)) (numFrames : Nat) : List (Nat × Nat) :=
  middleWindows nonSpeech ++
    (if (nonSpeech.getLastD (0, 0)).2 < numFrames then
      [((nonSpeech.getLastD (0, 0)).2, numFrames)]
    else [])

/-- `get_speech_label_and_write_VAD_rttm` in frame units; an empty
`non_speech` list makes line 439 (`non_speech[-1]`) raise `IndexError`,
modelled as `none`. -/
def get_speech_label_frames (nonSpeech : List (Nat × Nat)) (numFrames : Nat) :
    Option (List (Nat × Nat)) :=
  match nonSpeech with
  | [] => none
  | _ :: _ => some (speechFramesOf nonSpeech numFrames)

/-- Frame `f` lies in one of the closed intervals of the list. -/
def coveredBy (ivs : List (Nat × Nat)) (f : Nat) : Prop :=
  ∃ p ∈ ivs, p.1 ≤ f ∧ f ≤ p.2

instance (ivs : List (Nat × Nat)) (f : Nat) : Decidable (coveredBy ivs f) := by
  unfold coveredBy
  infer_instance

theorem getLastD_irrel {α : Type} :
    ∀ (l : List α), l ≠ [] → ∀ (d d' : α), l.getLastD d = l.getLastD d'
  | [], h, _, _ => absurd rfl h
  | a :: t, _, d, d' => by simp only [List.getLastD_cons]

theorem speechFramesOf_cons_cons (p q : Nat × Nat) (rest : List (Nat × Nat))
    (numFrames : Nat) :
    speechFramesOf (p :: q :: rest) numFrames =
      (p.2, q.1) :: speechFramesOf (q :: rest) numFrames := by
  rw [speechFramesOf, speechFramesOf, middleWindows]
  have hl : (p :: q :: rest).getLastD (0, 0) = (q :: rest).getLastD (0, 0) := by
    rw [List.getLastD_cons]
    exact getLastD_irrel (q :: rest) (by simp) p (0, 0)
  rw [hl, List.cons_append]

theorem coveredBy_cons (p : Nat × Nat) (tail : List (Nat × Nat)) (f : Nat) :
    coveredBy (p :: tail) f ↔ (p.1 ≤ f ∧ f ≤ p.2) ∨ coveredBy tail f := by
  simp [coveredBy]

/-- Coverage shape of the emitted silence and speech intervals: together
(with all endpoints included) they cover exactly the frames from the start
of the first non-speech interval up to and including `numFrames`. -/
theorem silence_speech_cover (numFrames : Nat) :
    ∀ (ns : List (Nat × Nat)), ns ≠ [] →
      List.Chain' (fun p q => p.2 < q.1) ns →
      (∀ p ∈ ns, p.1 ≤ p.2) →
      (ns.getLastD (0, 0)).2 < numFrames →
      ∀ f, (coveredBy ns f ∨ coveredBy (speechFramesOf ns numFrames) f) ↔
        ((ns.headD (0, 0)).1 ≤ f ∧ f ≤ numFrames)
  | [], h, _, _, _ => absurd rfl h
  | [p], _, hchain, hmem, hlast => by
    intro f
    have hp := hmem p (by simp)
    have hl : ([p].getLastD ((0 : Nat), (0 : Nat))).2 = p.2 := rfl
    rw [hl] at hlast
    have hsp : speechFramesOf [p] numFrames = [(p.2, numFrames)] := by
      rw [speechFramesOf]
      have h0 : ([p].getLastD ((0 : Nat), (0 : Nat))) = p := rfl
      rw [h0, if_pos hlast]
      rfl
    rw [hsp, coveredBy_cons p [] f, coveredBy_cons (p.2, numFrames) [] f]
    simp only [coveredBy, List.not_mem_nil, false_and, exists_false, or_false,
      List.headD_cons]
    constructor
    · rintro (h1 | h2) <;> omega
    · intro h
      by_cases hf : f ≤ p.2
      · exact Or.inl ⟨h.1, hf⟩
      · exact Or.inr ⟨by omega, h.2⟩
  | p :: q :: rest, _, hchain, hmem, hlast => by
    intro f
    have hpq : p.2 < q.1 := (List.chain'_cons.mp hchain).1
    have hp := hmem p (by simp)
    have hlast2 : ((q :: rest).getLastD (0, 0)).2 < numFrames := by
      rw [List.getLastD_cons] at hlast
      rw [getLastD_irrel (q :: rest) (by simp) (0, 0) p]
      exact hlast
    have ih := silence_speech_cover numFrames (q :: rest) (by simp)
      (List.chain'_cons.mp hchain).2 (fun x hx => hmem x (by simp [hx]))
      hlast2
    have hq1 : q.1 ≤ numFrames := by
      have := (ih q.1).mp (Or.inl ⟨q, by simp, le_rfl, hmem q (by simp)⟩)
      exact this.2
    rw [speechFramesOf_cons_cons, coveredBy_cons p (q :: rest) f,
      coveredBy_cons (p.2, q.1) (speechFramesOf (q :: rest) numFrames) f]
    simp only [List.headD_cons] at ih ⊢
    constructor
    · rintro ((h1 | h2) | (h3 | h4))
      · omega
      · have := (ih f).mp (Or.inl h2); omega
      · omega
      · have := (ih f).mp (Or.inr h4); omega
    · rintro ⟨h1, h2⟩
      by_cases hf1 : f ≤ p.2
      · exact Or.inl (Or.inl ⟨h1, hf1⟩)
      · by_cases hf2 : f ≤ q.1
        · exact Or.inr (Or.inl ⟨by omega, hf2⟩)
        · rcases (ih f).mpr ⟨by omega, h2⟩ with h | h
          · exact Or.inl (Or.inr h)
          · exact Or.inr (Or.inr h)

/-- Every non-speech interval's end frame is also contained in one of the
emitted speech segments: the two interval families share boundary frames. -/
theorem silence_speech_overlap (numFrames : Nat) :
    ∀ (ns : List (Nat × Nat)),
      List.Chain' (fun p q => p.2 < q.1) ns →
      (ns.getLastD (0, 0)).2 < numFrames →
      ∀ p ∈ ns, coveredBy (speechFramesOf ns numFrames) p.2
  | [], _, _ => by simp
  | [p], _, hlast => by
    intro x hx
    have hxp : x = p := by simpa using hx
    subst hxp
    have hl : ([x].getLastD ((0 : Nat), (0 : Nat))).2 = x.2 := rfl
    rw [hl] at hlast
    have hsp : speechFramesOf [x] numFrames = [(x.2, numFrames)] := by
      rw [speechFramesOf]
      have h0 : ([x].getLastD ((0 : Nat), (0 : Nat))) = x := rfl
      rw [h0, if_pos hlast]
      rfl
    rw [hsp]
    exact ⟨(x.2, numFrames), by simp, le_rfl, by omega⟩
  | p :: q :: rest, hchain, hlast => by
    intro x hx
    have hpq : p.2 < q.1 := (List.chain'_cons.mp hchain).1
    have hlast2 : ((q :: rest).getLastD (0, 0)).2 < numFrames := by
      rw [List.getLastD_cons] at hlast
      rw [getLastD_irrel (q :: rest) (by simp) (0, 0) p]
      exact hlast
    rw [speechFramesOf_cons_cons, coveredBy_cons]
    rcases List.mem_cons.mp hx with hxp | hxtail
    · subst hxp
      exact Or.inl ⟨le_rfl, by omega⟩
    · exact Or.inr (silence_speech_overlap numFrames (q :: rest)
        (List.chain'_cons.mp hchain).2 hlast2 x hxtail)

/- ------------------------------------------------------------------ -/
/- Speaker Attributor: `write_json_and_transcript`, lines 348-390.     -/
/- ------------------------------------------------------------------ -/

/-- A parsed diarization label line `"<start> <end> <speaker>"`: the source
stores these as space-separated strings and re-splits them
(`labels[idx].split()`); the embedding keeps the three fields. -/
structure SpkTurn where
  stt : Rat
  ens : Rat
  spk : String
deriving DecidableEq

instance : Inhabited SpkTurn := ⟨⟨0, 0, ""⟩⟩

/-- The word loop of `write_json_and_transcript` (lines 368-384) for one
utterance, recording for each word the attributed speaker and the value of
the turn pointer `idx` used for it.  `space_stt_end` is
`[wts[1], wts[1]]` for the final word (`j == len(spaces)`) and `spaces[j]`
otherwise; `pos_end = offset + mean(space_stt_end) * time_stride`; when
`pos_prev < float(end_point)` the current turn is kept, otherwise `idx` is
incremented once and `labels[idx]` is re-read (an out-of-range access, the
Python `IndexError`, is `none`). -/
def attrGo (labels : List SpkTurn) (offset stride : Rat) (words : List String)
    (spaces : List (Int × Int)) :
    Nat → List (Int × Int) → Rat → Nat → SpkTurn → Option (List (String × String × Nat))
  | _, [], _, _, _ => some []
  | j, wts :: rest, posPrev, idx, cur =>
    let space : Int × Int := if j = spaces.length then (wts.2, wts.2) else spaces.getD j (0, 0)
    let posEnd : Rat := offset + (((space.1 + space.2 : Int) : Rat) / 2) * stride
    if posPrev < cur.ens then
      (attrGo labels offset stride words spaces (j + 1) rest posEnd idx cur).map
        (fun r => (words.getD j "", cur.spk, idx) :: r)
    else
      match labels[idx + 1]? with
      | none => none
      | some nxt =>
        (attrGo labels offset stride words spaces (j + 1) rest posEnd (idx + 1) nxt).map
          (fun r => (words.getD j "", nxt.spk, idx + 1) :: r)

/-- The speaker attribution computed by `write_json_and_transcript` for one
utterance: line 362 reads `labels[0]` (an `IndexError`, hence `none`, when no
turns exist), the loop starts with `pos_prev = 0` and `idx = 0`. -/
def write_json_and_transcript_words (labels : List SpkTurn) (words : List String)
    (spaces wordTs : List (Int × Int)) (offset stride : Rat) :
    Option (List (String × String × Nat)) :=
  match labels with
  | [] => none
  | l0 :: _ => attrGo labels offset stride words spaces 0 wordTs 0 0 l0

/-- Invariants of the attribution loop: every produced record carries the
speaker of the turn its pointer designates, the pointer advances by at most
one per word and never moves backwards, and the first record's pointer is
the incoming `idx` or `idx + 1`. -/
theorem attrGo_pointer (labels : List SpkTurn) (offset stride : Rat)
    (words : List String) (spaces : List (Int × Int)) :
    ∀ (wordTs : List (Int × Int)) (j : Nat) (posPrev : Rat) (idx : Nat)
      (cur : SpkTurn) (l : List (String × String × Nat)),
      labels.getD idx default = cur →
      attrGo labels offset stride words spaces j wordTs posPrev idx cur = some l →
      (∀ e ∈ l, e.2.1 = (labels.getD e.2.2 default).spk) ∧
      List.Chain' (fun a b => a.2.2 = b.2.2 ∨ a.2.2 + 1 = b.2.2) l ∧
      (∀ e ∈ l.head?, e.2.2 = idx ∨ e.2.2 = idx + 1) := by
  intro wordTs
  induction wordTs with
  | nil =>
    intro j posPrev idx cur l hcur h
    rw [attrGo] at h
    cases Option.some.injEq _ _ ▸ h
    simp
  | cons wts rest ih =>
    intro j posPrev idx cur l hcur h
    simp only [attrGo] at h
    by_cases hlt : posPrev < cur.ens
    · rw [if_pos hlt] at h
      rcases Option.map_eq_some'.mp h with ⟨r, hr, hl⟩
      obtain ⟨ih1, ih2, ih3⟩ := ih (j + 1) _ idx cur r hcur hr
      subst hl
      refine ⟨?_, ?_, ?_⟩
      · intro e he
        rcases List.mem_cons.mp he with he0 | her
        · rw [he0]
          show cur.spk = (labels.getD idx default).spk
          rw [hcur]
        · exact ih1 e her
      · rw [List.chain'_cons']
        exact ⟨fun y hy => by rcases ih3 y hy with h1 | h1 <;> simp [h1], ih2⟩
      · intro e he
        simp only [List.head?_cons, Option.mem_def, Option.some.injEq] at he
        left
        rw [← he]
    · rw [if_neg hlt] at h
      cases hnext : labels[idx + 1]? with
      | none => rw [hnext] at h; exact absurd h (by simp)
      | some nxt =>
        rw [hnext] at h
        rcases Option.map_eq_some'.mp h with ⟨r, hr, hl⟩
        have hnxt : labels.getD (idx + 1) default = nxt := by
          rw [List.getD_eq_getElem?_getD, hnext]
          rfl
        obtain ⟨ih1, ih2, ih3⟩ := ih (j + 1) _ (idx + 1) nxt r hnxt hr
        subst hl
        refine ⟨?_, ?_, ?_⟩
        · intro e he
          rcases List.mem_cons.mp he with he0 | her
          · rw [he0]
            show nxt.spk = (labels.getD (idx + 1) default).spk
            rw [hnxt]
          · exact ih1 e her
        · rw [List.chain'_cons']
          exact ⟨fun y hy => by rcases ih3 y hy with h1 | h1 <;> simp [h1], ih2⟩
        · intro e he
          simp only [List.head?_cons, Option.mem_def, Option.some.injEq] at he
          right
          rw [← he]

/- ------------------------------------------------------------------ -/
/- Alignment Scorer: `eval_diarization`, lines 550-579.                -/
/- ------------------------------------------------------------------ -/

/-- Per-utterance input to `eval_diarization`: whether the reference RTTM
file exists, the reference labels read from it, and the predicted labels. -/
structure UttDiar where
  hasRef : Bool
  refLabels : List String
  hypLabels : List String
deriving DecidableEq

/-- The reference/hypothesis lists that `eval_diarization` passes to
`get_DER` after its per-file loop (lines 551-569): `all_references` and
`all_hypotheses` are (re)initialized to `[]` inside the loop body, so each
iteration discards the previous accumulations. -/
def eval_diarization_inputs (utts : List UttDiar) :
    List (List String) × List (List String) :=
  utts.foldl
    (fun _ u => ((if u.hasRef then [u.refLabels] else []), [u.hypLabels]))
    ([], [])

/-- Modelled from the spec: `get_DER` (imported from
`nemo.collections.asr.parts.utils.speaker_utils`, not part of this
repository's sources) computes per reference/hypothesis pair the false-alarm,
miss and confusion durations and the reference speech duration — the
pairwise interval-overlap accounting is abstracted as the parameter
`measure` — sums those durations over all pairs it is given, and reports
`(FA, MISS, confusion, DER)` with
`DER = (falseAlarm + miss + confusion) / totalReferenceSpeechDuration`. -/
def get_DER_spec (measure : List String → List String → Rat × Rat × Rat × Rat)
    (refs hyps : List (List String)) : Rat × Rat × Rat × Rat :=
  let pairs := refs.zip hyps
  let fa := (pairs.map fun p => (measure p.1 p.2).1).sum
  let miss := (pairs.map fun p => (measure p.1 p.2).2.1).sum
  let conf := (pairs.map fun p => (measure p.1 p.2).2.2.1).sum
  let total := (pairs.map fun p => (measure p.1 p.2).2.2.2).sum
  (fa, miss, conf, (fa + miss + conf) / total)

/-- Word/space bookkeeping of the `_get_spaces` scan: provided the suffix
`rem` really is `trans.drop k`, no position in `[stt, k)` holds a space, and
`stt` is `0` or just after a space, the scan produces exactly one more word
than it produces inter-word intervals iff the text is non-empty and does not
end in a space. -/
theorem getSpacesGo_snd_length (trans : List Char) (ts : List Int) :
    ∀ (rem : List Char) (k stt : Nat),
      rem = trans.drop k → k ≤ trans.length → stt ≤ k →
      (∀ j, stt ≤ j → j < k → trans.getD j ' ' ≠ ' ') →
      (stt = 0 ∨ trans.getD (stt - 1) ' ' = ' ') →
      (getSpacesGo trans ts rem k stt).2.length =
        (getSpacesGo trans ts rem k stt).1.length +
          (if 0 < trans.length ∧ trans.getD (trans.length - 1) ' ' ≠ ' ' then 1 else 0) := by
  intro rem
  induction rem with
  | nil =>
    intro k stt hrem hk hstt hJ hK
    have hkl : k = trans.length := by
      have hle : trans.length ≤ k := by
        by_contra hlt
        push_neg at hlt
        have := List.drop_eq_getElem_cons hlt
        rw [← hrem] at this
        exact List.noConfusion this
      omega
    subst hkl
    have hiff : (trans.length > stt ∧ trans.getD stt ' ' ≠ ' ') ↔
        (0 < trans.length ∧ trans.getD (trans.length - 1) ' ' ≠ ' ') := by
      constructor
      · rintro ⟨h1, h2⟩
        exact ⟨by omega, hJ (trans.length - 1) (by omega) (by omega)⟩
      · rintro ⟨h1, h2⟩
        have hsttlt : stt < trans.length := by
          rcases hK with h0 | hsp
          · omega
          · by_contra hge
            push_neg at hge
            have heq : stt = trans.length := by omega
            rw [heq] at hsp
            exact h2 hsp
        exact ⟨hsttlt, hJ stt le_rfl hsttlt⟩
    simp only [getSpacesGo]
    by_cases hcond : trans.length > stt ∧ trans.getD stt ' ' ≠ ' '
    · rw [if_pos hcond, if_pos (hiff.mp hcond)]
      simp
    · rw [if_neg hcond, if_neg (fun h => hcond (hiff.mpr h))]
      simp
  | cons c rem ih =>
    intro k stt hrem hk hstt hJ hK
    have hklt : k < trans.length := by
      by_contra hge
      push_neg at hge
      have : trans.drop k = [] := by
        rw [List.drop_eq_nil_iff]
        exact hge
      rw [← hrem] at this
      exact List.noConfusion this
    have hdc := List.drop_eq_getElem_cons hklt
    rw [← hrem] at hdc
    have hck : trans.getD k ' ' = c := by
      rw [List.getD_eq_getElem trans ' ' hklt]
      exact (List.cons.injEq _ _ _ _ ▸ hdc).1.symm
    have hdrop : rem = trans.drop (k + 1) := (List.cons.injEq _ _ _ _ ▸ hdc).2
    by_cases hc : c = ' '
    · simp only [getSpacesGo, if_pos hc, List.length_cons]
      rw [ih (k + 1) (k + 1) hdrop (by omega) le_rfl (fun j hj1 hj2 => by omega)
        (Or.inr (by rw [Nat.add_sub_cancel, hck]; exact hc))]
      omega
    · simp only [getSpacesGo, if_neg hc]
      refine ih (k + 1) stt hdrop (by omega) (by omega) (fun j hj1 hj2 => ?_) hK
      rcases Nat.lt_succ_iff_lt_or_eq.mp hj2 with hlt | heq
      · exact hJ j hj1 hlt
      · rw [heq, hck]
        exact hc


/- ------------------------------------------------------------------ -/
/- Claim theorems.                                                     -/
/- ------------------------------------------------------------------ -/

/-- Claim C2: for every token sequence and blank id, the Frame Decoder starts
with `previous = blank` and, for each frame `i` with label `p`, emits `p` and
records frame index `i` iff `(p ≠ previous ∨ previous = blank) ∧ p ≠ blank`,
then sets `previous = p` (so the effective `previous` at frame `i` is the
label of frame `i-1`, or blank at frame `0`); the sequence
`[5,5,0,0,7,7,7,0,5]` with blank id `0` decodes to token ids `[5,7,5]` with
timestamps `[0,4,8]`; and an all-blank input yields an empty hypothesis. -/
theorem ctc_decoder_frame_emission :
    (∀ (blankId : Nat) (pred : List Nat),
        ctc_decoder_predictions_tensor blankId pred =
          (((List.range pred.length).filter (ctcEmitB blankId blankId pred)).map
              (fun i => pred.getD i blankId),
           ((List.range pred.length).filter (ctcEmitB blankId blankId pred)).map
              (fun i : Nat => (i : Int)))) ∧
    ctc_decoder_predictions_tensor 0 [5, 5, 0, 0, 7, 7, 7, 0, 5] =
      ([5, 7, 5], [0, 4, 8]) ∧
    (∀ (blankId n : Nat),
        ctc_decoder_predictions_tensor blankId (List.replicate n blankId) = ([], [])) := by
  refine ⟨?_, by decide, ?_⟩
  · intro blankId pred
    rw [ctc_decoder_predictions_tensor, ctcLoop_characterization blankId pred blankId 0]
    have h : (fun i : Nat => (0 : Int) + (i : Int)) = fun i : Nat => (i : Int) := by
      funext i
      simp
    rw [h]
  · intro blankId n
    rw [ctc_decoder_predictions_tensor, ctcLoop_replicate_blank]

/-- Claim C9: decoding any expansion of a decoded hypothesis — each non-blank
token repeated at least once, with at least one separating blank where the
same token repeats non-contiguously — returns exactly the original token
sequence, with exactly one timestamp per emitted token. -/
theorem ctc_collapse_idempotence (blankId : Nat) (hyp seq : List Nat)
    (h : IsExp blankId none hyp seq) :
    (ctc_decoder_predictions_tensor blankId seq).1 = hyp ∧
    (ctc_decoder_predictions_tensor blankId seq).2.length = hyp.length := by
  have hmain := ctcLoop_isExp blankId hyp none seq 0 h
    (fun t ht => Option.noConfusion ht)
  exact hmain

/-- Witness for C9 at the concrete expansion `[5,5,0,0,7,7,7,0,5]` of the
hypothesis `[5,7,5]` with blank id `0`. -/
theorem ctc_collapse_idempotence_witness :
    IsExp 0 none [5, 7, 5] [5, 5, 0, 0, 7, 7, 7, 0, 5] ∧
    (ctc_decoder_predictions_tensor 0 [5, 5, 0, 0, 7, 7, 7, 0, 5]).1 = [5, 7, 5] ∧
    (ctc_decoder_predictions_tensor 0 [5, 5, 0, 0, 7, 7, 7, 0, 5]).2.length =
      ([5, 7, 5] : List Nat).length := by
  have hexp : IsExp 0 none [5, 7, 5] [5, 5, 0, 0, 7, 7, 7, 0, 5] :=
    ⟨by decide, 0, 1, [0, 0, 7, 7, 7, 0, 5], rfl, fun hc => Option.noConfusion hc,
      by decide, 2, 2, [0, 5], rfl, fun hc => by simp at hc,
      by decide, 1, 0, [], rfl, fun hc => by simp at hc, 0, rfl⟩
  exact ⟨hexp, (ctc_collapse_idempotence 0 [5, 7, 5] _ hexp).1,
    (ctc_collapse_idempotence 0 [5, 7, 5] _ hexp).2⟩

/-- Claim C10: `_get_spaces` asserts that the decoded text and the timestamp
list are both non-empty and of equal length; in particular the empty
hypothesis produced by the Frame Decoder from an all-blank token sequence
(which the decoder itself accepts without error) makes the Word Timer fail
its assertion instead of returning zero words. -/
theorem word_timer_input_assertions :
    (∀ (trans : List Char) (ts : List Int),
        (get_spaces trans ts).isSome ↔
          (trans.length > 0 ∧ ts.length > 0 ∧ trans.length = ts.length)) ∧
    (∀ (labelsMap : Nat → Char) (blankId n : Nat),
        get_spaces
          (((ctc_decoder_predictions_tensor blankId (List.replicate n blankId)).1).map labelsMap)
          (ctc_decoder_predictions_tensor blankId (List.replicate n blankId)).2 = none) := by
  constructor
  · intro trans ts
    rw [get_spaces]
    by_cases h : trans.length > 0 ∧ ts.length > 0 ∧ trans.length = ts.length
    · rw [if_pos h]
      simpa using h
    · rw [if_neg h]
      simpa using h
  · intro labelsMap blankId n
    rw [ctc_decoder_predictions_tensor, ctcLoop_replicate_blank]
    rfl

/-- Claim C5 counterexample: for the zero-space text `"a"` (0 internal
spaces, no leading or trailing space), `_get_spaces` returns one word, but
the boundary-derived window computation of `get_speech_labels_list`
subscripts the empty `_spaces` list (`_spaces[0]`, an `IndexError`) and so
produces no window count at all — the claimed three-way count equality fails
for texts with zero spaces. -/
theorem word_count_zero_space_counterexample :
    get_spaces ['a'] [0] = some ([], [['a']]) ∧
    word_timetamps [0] [] 5 = none ∧
    get_speech_labels_core ['a'] [0] 5 = none := by
  exact ⟨by decide, rfl, by decide⟩

/-- Claim C5 (amended): for every hypothesis text with at least one internal
space, no leading or trailing space, and one timestamp per character, the
whole per-utterance computation succeeds (including the final
`assert len(_trans_words) == len(word_timetamps)`) and the number of words,
the number of space-delimited tokens of the text, and the number of
boundary-derived timing windows all coincide; for zero-space texts the
window derivation instead fails with an `IndexError` (see the
counterexample), so the equality of words and windows holds only from one
space upwards. -/
theorem word_count_conservation (trans : List Char) (ts : List Int) (numFrames : Int)
    (hne : trans ≠ []) (hlen : trans.length = ts.length)
    (_hfirst : trans.getD 0 ' ' ≠ ' ')
    (hlast : trans.getD (trans.length - 1) ' ' ≠ ' ')
    (hsp : ' ' ∈ trans) :
    ∃ sp wl w, get_speech_labels_core trans ts numFrames = some (sp, wl, w) ∧
      wl.length = (spaceTokens trans).length ∧
      w.length = (spaceTokens trans).length := by
  have hlen0 : 0 < trans.length := List.length_pos.mpr hne
  have hguard : trans.length > 0 ∧ ts.length > 0 ∧ trans.length = ts.length :=
    ⟨hlen0, hlen ▸ hlen0, hlen⟩
  have hgs : get_spaces trans ts = some (getSpacesGo trans ts trans 0 0) := by
    rw [get_spaces, if_pos hguard]
  have hcount : (getSpacesGo trans ts trans 0 0).1.length = trans.count ' ' :=
    getSpacesGo_fst_length trans ts trans 0 0
  have hwllen : (getSpacesGo trans ts trans 0 0).2.length =
      (getSpacesGo trans ts trans 0 0).1.length + 1 := by
    have h := getSpacesGo_snd_length trans ts trans 0 0 (List.drop_zero trans).symm
      (Nat.zero_le _) (Nat.zero_le _) (fun j hj1 hj2 => absurd hj2 (Nat.not_lt_zero j))
      (Or.inl rfl)
    rw [if_pos ⟨hlen0, hlast⟩] at h
    exact h
  have hcpos : 0 < trans.count ' ' := List.count_pos_iff.mpr hsp
  have hspn : (getSpacesGo trans ts trans 0 0).1 ≠ [] := by
    rw [← List.length_pos, hcount]
    exact hcpos
  obtain ⟨s0, srest, hsp0⟩ : ∃ s0 srest, (getSpacesGo trans ts trans 0 0).1 = s0 :: srest := by
    match hsp1 : (getSpacesGo trans ts trans 0 0).1, hspn with
    | x :: xs, _ => exact ⟨x, xs, rfl⟩
  have hwt : word_timetamps ts ((getSpacesGo trans ts trans 0 0).1) numFrames =
      some ((ts.getD 0 0, s0.1) ::
        (middleWindows ((getSpacesGo trans ts trans 0 0).1) ++
          [(((getSpacesGo trans ts trans 0 0).1.getLastD (0, 0)).2, numFrames)])) := by
    rw [hsp0, word_timetamps]
  have hwlen := word_timetamps_length ts ((getSpacesGo trans ts trans 0 0).1) numFrames _ hwt
  have htok : (spaceTokens trans).length = trans.count ' ' + 1 := spaceTokens_length trans
  refine ⟨(getSpacesGo trans ts trans 0 0).1, (getSpacesGo trans ts trans 0 0).2,
    (ts.getD 0 0, s0.1) :: (middleWindows ((getSpacesGo trans ts trans 0 0).1) ++
      [(((getSpacesGo trans ts trans 0 0).1.getLastD (0, 0)).2, numFrames)]), ?_, ?_, ?_⟩
  · rw [get_speech_labels_core, hgs, Option.some_bind, hwt, Option.some_bind,
      if_pos (by rw [hwllen, hwlen])]
  · rw [hwllen, hcount, htok]
  · rw [hwlen, hcount, htok]

/-- Claim C8 counterexample: for text `"a b"` with timestamps `[0,2,4]` in a
6-frame sequence, the inter-word boundary is `[2,3]` and the produced last
word window is `[3,6]` — it ends at `logit.shape[0] = 6`, the frame count,
not at the sequence's final frame index `6 - 1 = 5` as the claim states. -/
theorem last_word_window_counterexample :
    word_timetamps [0, 2, 4] [(2, 3)] 6 = some [(0, 2), (3, 6)] ∧
    ([((0 : Int), (2 : Int)), (3, 6)].getLastD (0, 0)).2 ≠ 6 - 1 := by
  exact ⟨rfl, by decide⟩

/-- Claim C8 (amended): a space at text position `k` produces the inter-word
boundary `[timestamp[k], timestamp[k+1]-1]` (these are exactly the recorded
boundaries, in order); word `0`'s window runs from the hypothesis's first
timestamp to the first boundary's start; each middle window `i+1` runs from
boundary `i`'s end to boundary `i+1`'s start; and the last window runs from
the last boundary's end to `logit.shape[0]` — the total frame count, one
past the final frame index. -/
theorem word_boundary_windows (trans : List Char) (ts : List Int) (numFrames : Int)
    (sp : List (Int × Int)) (wl : List (List Char))
    (h : get_spaces trans ts = some (sp, wl)) :
    sp = ((List.range trans.length).filter (fun j => decide (trans.getD j ' ' = ' '))).map
        (fun j => (ts.getD j 0, ts.getD (j + 1) 0 - 1)) ∧
    ∀ w, word_timetamps ts sp numFrames = some w →
      w.length = sp.length + 1 ∧
      w.getD 0 (0, 0) = (ts.getD 0 0, (sp.getD 0 (0, 0)).1) ∧
      (∀ i, i + 1 < sp.length →
        w.getD (i + 1) (0, 0) = ((sp.getD i (0, 0)).2, (sp.getD (i + 1) (0, 0)).1)) ∧
      w.getD sp.length (0, 0) = ((sp.getLastD (0, 0)).2, numFrames) := by
  have hsp : sp = (getSpacesGo trans ts trans 0 0).1 := by
    rw [get_spaces] at h
    by_cases hguard : trans.length > 0 ∧ ts.length > 0 ∧ trans.length = ts.length
    · rw [if_pos hguard] at h
      exact congrArg Prod.fst (Option.some.injEq _ _ ▸ h).symm
    · rw [if_neg hguard] at h
      exact absurd h (by simp)
  constructor
  · rw [hsp, getSpacesGo_fst_eq trans ts trans 0 0]
    have hfun : (fun j => ((ts.getD (0 + j) 0, ts.getD (0 + j + 1) 0 - 1) : Int × Int)) =
        fun j => (ts.getD j 0, ts.getD (j + 1) 0 - 1) := by
      funext j
      simp
    rw [hfun]
  · intro w hw
    match hsp0 : sp, hw with
    | s0 :: srest, hw =>
      rw [word_timetamps] at hw
      have hwval := (Option.some.injEq _ _ ▸ hw).symm
      have hmidlen : (middleWindows (s0 :: srest)).length = (s0 :: srest).length - 1 :=
        middleWindows_length (s0 :: srest)
      refine ⟨word_timetamps_length ts (s0 :: srest) numFrames w (by rw [word_timetamps, hwval]),
        ?_, ?_, ?_⟩
      · rw [hwval]
        rfl
      · intro i hi
        rw [hwval, List.getD_cons_succ,
          List.getD_append _ _ _ _ (by rw [hmidlen]; simp at hi ⊢; omega),
          middleWindows_getD (0, 0) (s0 :: srest) i hi]
      · rw [hwval, List.length_cons, List.getD_cons_succ,
          List.getD_append_right _ _ _ _ (by rw [hmidlen]; simp)]
        rw [hmidlen]
        simp

/-- Witness for the amended C5 at text `"a b"`, timestamps `[0,2,4]`,
6 frames. -/
theorem word_count_conservation_witness :
    ∃ sp wl w, get_speech_labels_core "a b".toList [0, 2, 4] 6 = some (sp, wl, w) ∧
      wl.length = (spaceTokens "a b".toList).length ∧
      w.length = (spaceTokens "a b".toList).length :=
  word_count_conservation "a b".toList [0, 2, 4] 6 (by decide) (by decide) (by decide)
    (by decide) (by decide)

/-- Witness for the amended C8 at text `"a b"`, timestamps `[0,2,4]`,
6 frames. -/
theorem word_boundary_windows_witness :
    [((2 : Int), (3 : Int))] =
      ((List.range ("a b".toList).length).filter
          (fun j => decide (("a b".toList).getD j ' ' = ' '))).map
        (fun j => (([0, 2, 4] : List Int).getD j 0, ([0, 2, 4] : List Int).getD (j + 1) 0 - 1)) ∧
    ∀ w, word_timetamps [0, 2, 4] [(2, 3)] 6 = some w →
      w.length = [((2 : Int), (3 : Int))].length + 1 ∧
      w.getD 0 (0, 0) = (([0, 2, 4] : List Int).getD 0 0,
        ([((2 : Int), (3 : Int))].getD 0 (0, 0)).1) ∧
      (∀ i, i + 1 < [((2 : Int), (3 : Int))].length →
        w.getD (i + 1) (0, 0) = (([((2 : Int), (3 : Int))].getD i (0, 0)).2,
          ([((2 : Int), (3 : Int))].getD (i + 1) (0, 0)).1)) ∧
      w.getD [((2 : Int), (3 : Int))].length (0, 0) =
        (([((2 : Int), (3 : Int))].getLastD (0, 0)).2, 6) :=
  word_boundary_windows "a b".toList [0, 2, 4] 6 [(2, 3)] ["a".toList, "b".toList] (by decide)

/-- Claim C4: the Silence Segmenter's scan equals, for every non-empty
frame-probability sequence and silence index, the spec's reified two-state
machine run over the per-frame arg-max classes: it enters `IN_SILENCE` when
the arg-max equals the silence index (recording the entry frame), while
`IN_SILENCE` closes the interval at the previous frame exactly when the
arg-max becomes neither `0` nor the silence index (arg-max class `0` inside
a run does not close it), and when still `IN_SILENCE` at sequence end closes
at the last frame. -/
theorem silence_segmenter_state_machine (probs : List (List Rat)) (symbolIdx : Nat)
    (h : probs ≠ []) :
    get_silence_timestamps probs symbolIdx =
      silence_segmenter_spec symbolIdx (probs.map npArgmax) := by
  match probs, h with
  | p0 :: rest, _ =>
    rw [get_silence_timestamps, List.map_cons, silence_segmenter_spec, silenceSpecGo]
    by_cases ha : npArgmax p0 = symbolIdx
    · rw [if_pos ha, decide_eq_true ha]
      exact (silenceScan_eq_specGo symbolIdx (rest.map npArgmax) 1 0).1
    · rw [if_neg ha, decide_eq_false ha]
      exact (silenceScan_eq_specGo symbolIdx (rest.map npArgmax) 1 0).2

/-- Witness for C4 on a concrete three-frame probability matrix with silence
index `1`. -/
theorem silence_segmenter_state_machine_witness :
    get_silence_timestamps [[0, 1], [1, 0], [0, 1]] 1 =
      silence_segmenter_spec 1 ([[(0 : Rat), 1], [1, 0], [0, 1]].map npArgmax) :=
  silence_segmenter_state_machine [[0, 1], [1, 0], [0, 1]] 1 (by decide)

/-- The non-speech filter of `get_speech_labels_list` (line 474):
`non_speech = filter(lambda x: x[1]-x[0] > threshold, blanks)`. -/
def non_speech_of (probs : List (List Rat)) (symbolIdx threshold : Nat) :
    List (Nat × Nat) :=
  (get_silence_timestamps probs symbolIdx).filter (fun x => threshold < x.2 - x.1)

/-- A 29-entry probability row (the QuartzNet vocabulary size used with
`symbol_idx = 28`) whose arg-max class is `k`. -/
def oneHotRow (k : Nat) : List Rat :=
  (List.range 29).map (fun i => if i = k then 1 else 0)

/-- Claim C6 counterexample: for a four-frame utterance whose arg-max classes
are `[1, 28, 28, 1]` (silence threshold `0`), the emitted non-speech interval
is `[1,2]` and the emitted speech interval is `[2,4]`: frame `0` is covered
by neither family (the code never emits a speech segment before the first
non-speech interval), and frame `2` is covered by both — so the union is
neither gap-free on `[0, numFrames)` nor overlap-free. -/
theorem silence_speech_partition_counterexample :
    non_speech_of [oneHotRow 1, oneHotRow 28, oneHotRow 28, oneHotRow 1] 28 0 = [(1, 2)] ∧
    get_speech_label_frames [(1, 2)] 4 = some [(2, 4)] ∧
    ¬ coveredBy [(1, 2)] 0 ∧ ¬ coveredBy [(2, 4)] 0 ∧
    coveredBy [(1, 2)] 2 ∧ coveredBy [(2, 4)] 2 := by
  exact ⟨by decide, by decide, by decide, by decide, by decide, by decide⟩

/-- Claim C6 (amended): for a non-empty, time-ordered, well-formed non-speech
interval list whose last interval ends before `numFrames`, the union of the
non-speech intervals and the emitted speech intervals covers exactly the
frames from the first non-speech interval's start to `numFrames` inclusive —
frames before the first non-speech interval are not covered, and the two
families are not disjoint: every non-speech interval's end frame also lies
in a speech interval. -/
theorem silence_speech_union (ns : List (Nat × Nat)) (numFrames : Nat)
    (hne : ns ≠ []) (hchain : List.Chain' (fun p q => p.2 < q.1) ns)
    (hmem : ∀ p ∈ ns, p.1 ≤ p.2) (hlast : (ns.getLastD (0, 0)).2 < numFrames) :
    get_speech_label_frames ns numFrames = some (speechFramesOf ns numFrames) ∧
    (∀ f, (coveredBy ns f ∨ coveredBy (speechFramesOf ns numFrames) f) ↔
      ((ns.headD (0, 0)).1 ≤ f ∧ f ≤ numFrames)) ∧
    (∀ p ∈ ns, coveredBy (speechFramesOf ns numFrames) p.2) := by
  refine ⟨?_, silence_speech_cover numFrames ns hne hchain hmem hlast,
    silence_speech_overlap numFrames ns hchain hlast⟩
  match ns, hne with
  | x :: t, _ => rfl

/-- Witness for the amended C6 at the non-speech list `[(1,2)]` with four
frames (the output of the Silence Segmenter on the counterexample input). -/
theorem silence_speech_union_witness :
    get_speech_label_frames [(1, 2)] 4 = some (speechFramesOf [(1, 2)] 4) ∧
    (∀ f, (coveredBy [(1, 2)] f ∨ coveredBy (speechFramesOf [(1, 2)] 4) f) ↔
      ((([((1 : Nat), (2 : Nat))]).headD (0, 0)).1 ≤ f ∧ f ≤ 4)) ∧
    (∀ p ∈ [((1 : Nat), (2 : Nat))], coveredBy (speechFramesOf [(1, 2)] 4) p.2) :=
  silence_speech_union [(1, 2)] 4 (by decide) (by simp) (by decide) (by decide)

/-- Claim C3 counterexample: for the spec's own example — words
`{"hi",0,10}`, `{"there",11,20}` (inter-word space `[10,11]`) and turns
`{0,15,"A"}`, `{15,30,"B"}`, with identity time conversion — the code
attributes "there" to speaker "A", not "B" as the claim states: the advance
test compares the previous word's boundary midpoint (`10.5`) with turn "A"'s
end (`15`), so the pointer never advances. -/
theorem speaker_attribution_example_counterexample :
    (write_json_and_transcript_words [⟨0, 15, "A"⟩, ⟨15, 30, "B"⟩] ["hi", "there"]
        [(10, 11)] [(0, 10), (11, 20)] 0 1).map
      (List.map (fun e => (e.1, e.2.1))) = some [("hi", "A"), ("there", "A")] ∧
    [("hi", "A"), ("there", "A")] ≠ [("hi", "A"), ("there", "B")] := by
  exact ⟨by norm_num [write_json_and_transcript_words, attrGo], by decide⟩

/-- Claim C3 (amended): for each word taken in order, the Speaker Attributor
advances the turn pointer at most once (an `if`, not a `while`): it keeps the
current turn while the previous word's boundary midpoint position is below
the current turn's end time, otherwise advances by exactly one turn; every
word is attributed to the turn at the pointer's resulting position; and on
the example words and turns both "hi" and "there" are attributed to speaker
"A". -/
theorem speaker_attributor_single_advance :
    (∀ (labels : List SpkTurn) (words : List String) (spaces wordTs : List (Int × Int))
        (offset stride : Rat) (l : List (String × String × Nat)),
      write_json_and_transcript_words labels words spaces wordTs offset stride = some l →
      (∀ e ∈ l, e.2.1 = (labels.getD e.2.2 default).spk) ∧
      List.Chain' (fun a b => a.2.2 = b.2.2 ∨ a.2.2 + 1 = b.2.2) l ∧
      (∀ e ∈ l.head?, e.2.2 = 0 ∨ e.2.2 = 1)) ∧
    write_json_and_transcript_words [⟨0, 15, "A"⟩, ⟨15, 30, "B"⟩] ["hi", "there"]
        [(10, 11)] [(0, 10), (11, 20)] 0 1 =
      some [("hi", "A", 0), ("there", "A", 0)] := by
  constructor
  · intro labels words spaces wordTs offset stride l h
    match labels, h with
    | l0 :: lrest, h =>
      exact attrGo_pointer (l0 :: lrest) offset stride words spaces wordTs 0 0 0 l0 l rfl h
  · norm_num [write_json_and_transcript_words, attrGo]

/-- Witness for the amended C3: its universal part applied to a concrete
run (single turn, no words — the attribution loop returns an empty record
list by its first equation, so the hypothesis is dischargeable by `rfl`). -/
theorem speaker_attributor_single_advance_witness :
    (∀ e ∈ ([] : List (String × String × Nat)),
      e.2.1 = (([⟨0, 1, "A"⟩] : List SpkTurn).getD e.2.2 default).spk) ∧
    List.Chain' (fun a b => a.2.2 = b.2.2 ∨ a.2.2 + 1 = b.2.2)
      ([] : List (String × String × Nat)) ∧
    (∀ e ∈ ([] : List (String × String × Nat)).head?, e.2.2 = 0 ∨ e.2.2 = 1) :=
  speaker_attributor_single_advance.1 [⟨0, 1, "A"⟩] [] [] [] 0 1 [] rfl

/-- Claim C7 counterexample: a word whose time span `[0,1]` precedes the
single turn `[10,20,"A"]` is silently attributed to speaker "A" — the run
succeeds instead of failing loudly, because the loop's comparison
`pos_prev < float(end_point)` (here `0 < 20`) treats any early word as lying
inside the first turn. -/
theorem word_before_first_turn_counterexample :
    write_json_and_transcript_words [⟨10, 20, "A"⟩] ["hi"] [] [(0, 1)] 0 1 =
      some [("hi", "A", 0)] := by
  norm_num [write_json_and_transcript_words, attrGo]

/-- Claim C7 (amended): the Speaker Attributor fails (with an uncaught
`IndexError`, not a reported failure) when no turns exist (`labels[0]`) and
when a word's boundary position advances past the last turn's end
(`labels[idx]` after the one-step advance); but a word that precedes the
first turn is silently attributed to the first turn's speaker rather than
failing. -/
theorem speaker_attributor_failure_modes :
    (∀ (words : List String) (spaces wordTs : List (Int × Int)) (offset stride : Rat),
      write_json_and_transcript_words [] words spaces wordTs offset stride = none) ∧
    write_json_and_transcript_words [⟨0, 15, "A"⟩] ["a", "b"] [(30, 32)]
      [(0, 10), (40, 50)] 0 1 = none ∧
    write_json_and_transcript_words [⟨5, 9, "B"⟩] ["w"] [] [(0, 1)] 0 1 =
      some [("w", "B", 0)] := by
  refine ⟨fun _ _ _ _ _ => rfl, ?_, ?_⟩
  · norm_num [write_json_and_transcript_words, attrGo]
  · norm_num [write_json_and_transcript_words, attrGo]

/-- Claim C1: `eval_diarization` re-initializes `all_references` and
`all_hypotheses` inside its per-file loop, so the lists handed to `get_DER`
hold only the final utterance of the batch — durations are not aggregated
across the batch, contradicting both the claim and the function's own
"Cumulative results of all the files" log line.  With the spec-modelled
`get_DER` the resulting error rate differs from the true batch-aggregated
one on a two-utterance batch. -/
theorem eval_diarization_scores_only_last :
    (∀ (u1 u2 : UttDiar), eval_diarization_inputs [u1, u2] =
      ((if u2.hasRef then [u2.refLabels] else []), [u2.hypLabels])) ∧
    eval_diarization_inputs
        [⟨true, ["ref1a", "ref1b"], ["hyp1"]⟩, ⟨true, ["ref2"], ["hyp2"]⟩] =
      ([["ref2"]], [["hyp2"]]) ∧
    (get_DER_spec (fun r _ => ((r.length : Rat), 0, 0, 1)) [["ref2"]] [["hyp2"]]).2.2.2 ≠
      (get_DER_spec (fun r _ => ((r.length : Rat), 0, 0, 1))
        [["ref1a", "ref1b"], ["ref2"]] [["hyp1"], ["hyp2"]]).2.2.2 := by
  refine ⟨fun u1 u2 => rfl, rfl, ?_⟩
  norm_num [get_DER_spec]
